import Mathlib

/-!
Shallow embedding of the Grimmeroo blueprint resolver (src/grimmeroo.py).

The peripheral glue (HTML scraping, pickle cache, argparse CLI) is out of
scope; the embedding covers the data model and the in-memory operations:
Blueprint.materials_list, Blueprints.add_blueprint, Blueprints.size,
Blueprints.find_keyword, Blueprints.find_materials and pack_list.

Python dictionaries are modelled as association lists kept in insertion
order; the Python possibility of KeyError or of a non-terminating loop is
made explicit with a PyResult type and a fuel bound on loops.
-/

namespace Grimmeroo

/-- A single crafting recipe: name, type, and the materials dict mapping
ingredient name to required quantity, in insertion order (Python dict). -/
structure Blueprint where
  name : String
  type : String
  materials : List (String × Nat)
deriving Repr, DecidableEq

/-- Blueprint.materials_list: flattens the materials dict into a list where
each ingredient name is repeated by its quantity (the Python nested list
comprehension builds a fresh list; it never aliases the dict). -/
def Blueprint.materials_list (b : Blueprint) : List String :=
  (b.materials.map (fun p => List.replicate p.2 p.1)).flatten

/-- The resolver state self.blueprints: a Python dict from blueprint name to
Blueprint, modelled as an association list in insertion order. -/
abbrev Dict := List (String × Blueprint)

/-- Python dict membership test (the "material in self.blueprints" check). -/
def member (d : Dict) (k : String) : Bool :=
  d.any (fun p => p.1 == k)

/-- Python dict lookup; none models a raised KeyError. -/
def lookup (d : Dict) (k : String) : Option Blueprint :=
  (d.find? (fun p => p.1 == k)).map (fun p => p.2)

/-- Total variant of lookup used only under a member guard. -/
def lookupD (d : Dict) (k : String) : Blueprint :=
  (lookup d k).getD ⟨"", "", []⟩

/-- Python dict assignment d[k] = v: if the key exists its value is updated
in place (the key keeps its position), otherwise the binding is appended. -/
def dictInsert (d : Dict) (k : String) (v : Blueprint) : Dict :=
  if member d k then d.map (fun p => if p.1 == k then (k, v) else p)
  else d ++ [(k, v)]

/-- Blueprints.add_blueprint: stores the blueprint under its name; on a
duplicate name the code only prints a warning and overwrites. -/
def add_blueprint (d : Dict) (b : Blueprint) : Dict :=
  dictInsert d b.name b

/-- Blueprints.size: len(self.blueprints). -/
def size (d : Dict) : Nat :=
  d.length

/-- pack_list: counts the occurrences of each distinct element of the list.
Python iterates over set(a_list), whose order is unspecified; the model
lists the keys in order of first occurrence, and every property stated
about pack_list below is order-independent. -/
def pack_list (l : List String) : List (String × Nat) :=
  l.dedup.map (fun k => (k, l.count k))

/-- Reading a count out of a packed dict, 0 when the key is absent. -/
def lookupNat (d : List (String × Nat)) (k : String) : Nat :=
  ((d.find? (fun p => p.1 == k)).map (fun p => p.2)).getD 0

/-- Outcome of a method call that can raise KeyError or fail to terminate:
ok, keyError (the Python KeyError, the UnknownItemError of the spec, carrying the
offending name), or timeout (the fuel bound on a loop was exhausted,
modelling a run that does not finish). -/
inductive PyResult (α : Type) where
  | ok : α → PyResult α
  | keyError : String → PyResult α
  | timeout : PyResult α
deriving Repr, DecidableEq

/-- The body of the for-loop of Blueprints.find_materials.  The Python
enumerate over the live list re-checks the length at every step, so
elements appended by result.extend are visited too; idx is the iterator
position, tr the accumulated to_remove list.  fuel bounds the number of
iterations; none means the bound was reached. -/
def findLoop (bps : Dict) : Nat → List String → Nat → List Nat →
    Option (List String × List Nat)
  | fuel, result, idx, tr =>
    if idx < result.length then
      match fuel with
      | 0 => none
      | fuel' + 1 =>
        let material := result.getD idx ""
        if member bps material then
          findLoop bps fuel'
            (result ++ (lookupD bps material).materials_list) (idx + 1)
            (tr ++ [idx])
        else
          findLoop bps fuel' result (idx + 1) tr
    else
      some (result, tr)

/-- The final list comprehension of find_materials: keep result[i] for every
index i of range(len(result)) that is not in to_remove. -/
def filterOut (result : List String) (tr : List Nat) : List String :=
  ((List.range result.length).filter (fun i => decide (i ∉ tr))).map
    (fun i => result.getD i "")

/-- Blueprints.find_materials: looks the item up (KeyError when absent),
runs the expansion loop, then filters out the removed positions. -/
def find_materials (bps : Dict) (fuel : Nat) (item_name : String) :
    PyResult (List String) :=
  match lookup bps item_name with
  | none => .keyError item_name
  | some b =>
    match findLoop bps fuel b.materials_list 0 [] with
    | none => .timeout
    | some (result, tr) => .ok (filterOut result tr)

/-- The Python substring test "needle in hay" on character lists. -/
def subList (needle : List Char) : List Char → Bool
  | [] => needle.isPrefixOf []
  | c :: t => needle.isPrefixOf (c :: t) || subList needle t

/-- Lowercasing, str.lower(), written over the character list (String.toLower does the
same fold but through an accumulator the kernel cannot reduce). -/
def strLower (s : String) : String :=
  ⟨s.data.map Char.toLower⟩

/-- Substring test keyword.lower() in name.lower(). -/
def strContains (hay needle : String) : Bool :=
  subList needle.data hay.data

/-- The dict comprehension of find_keyword: one entry per matched name,
holding the packed fully-resolved materials.  A timeout inside any
find_materials call makes the whole query time out (none). -/
def keywordEntries (bps : Dict) (fuel : Nat) :
    List String → Option (List (String × List (String × Nat)))
  | [] => some []
  | k :: rest =>
    match find_materials bps fuel k, keywordEntries bps fuel rest with
    | .ok l, some r => some ((k, pack_list l) :: r)
    | _, _ => none

/-- The match set of Blueprints.find_keyword: the stored names containing
keyword.lower() as a substring of their lowercased form. -/
def matchedNames (bps : Dict) (keyword : String) : List String :=
  (bps.map (fun p => p.1)).filter
    (fun k => strContains (strLower k) (strLower keyword))

/-- Blueprints.find_keyword. -/
def find_keyword (bps : Dict) (fuel : Nat) (keyword : String) :
    Option (List (String × List (String × Nat))) :=
  keywordEntries bps fuel (matchedNames bps keyword)

/-- Modelled from the spec: helper of the integer-weighted reference
resolution of the multiplicity-correctness note (spec section 4.2).  Folds
one materials dict, resolving each ingredient with the accumulated quantity
multiplied by the own quantity of the ingredient. -/
def resolveStep (f : String → Nat → Option (List String)) :
    List (String × Nat) → Nat → Option (List String)
  | [], _ => some []
  | (m, k) :: rest, qty =>
    match f m (qty * k), resolveStep f rest qty with
    | some a, some b => some (a ++ b)
    | _, _ => none

/-- Modelled from the spec: the integer-weighted recursive resolution with a
quantity accumulator passed down (spec section 4.2, multiplicity note).  A
terminal name contributes itself once per accumulated quantity; a craftable
name recurses into its materials.  fuel bounds the recursion depth; none
means the bound was reached (only possible on cyclic data). -/
def resolve_acc (bps : Dict) : Nat → String → Nat → Option (List String)
  | 0, _, _ => none
  | fuel + 1, name, qty =>
    match lookup bps name with
    | none => some (List.replicate qty name)
    | some b => resolveStep (resolve_acc bps fuel) b.materials qty

/-! State-passing reading of the method calls.  Each Python method is read
as a function of the receiver state self.blueprints that returns the state
it leaves behind together with its result.  find_keyword, find_materials
and size contain no assignment to self.blueprints and no in-place mutation
of a stored Blueprint (materials_list builds a fresh list, so
result.extend never touches a stored materials dict); the state they leave
is therefore the state they received.  add_blueprint performs the one
assignment self.blueprints[name] = blueprint. -/

/-- Blueprints.find_keyword as a state transformer. -/
def find_keywordS (bps : Dict) (fuel : Nat) (keyword : String) :
    Dict × Option (List (String × List (String × Nat))) :=
  (bps, find_keyword bps fuel keyword)

/-- Blueprints.find_materials as a state transformer. -/
def find_materialsS (bps : Dict) (fuel : Nat) (item_name : String) :
    Dict × PyResult (List String) :=
  (bps, find_materials bps fuel item_name)

/-- Blueprints.size as a state transformer. -/
def sizeS (bps : Dict) : Dict × Nat :=
  (bps, size bps)

/-- Blueprints.add_blueprint as a state transformer. -/
def add_blueprintS (bps : Dict) (b : Blueprint) : Dict × Unit :=
  (add_blueprint bps b, ())

/-- Queue reformulation of the find_materials loop, used in the proofs:
the slice result[idx:] is a pending queue and kept accumulates the entries
that survive the final filter.  It is proved below to agree with findLoop. -/
def queueLoop (bps : Dict) : Nat → List String → List String →
    Option (List String)
  | _, kept, [] => some kept
  | 0, _, _ :: _ => none
  | fuel + 1, kept, x :: rest =>
    if member bps x then
      queueLoop bps fuel kept (rest ++ (lookupD bps x).materials_list)
    else
      queueLoop bps fuel (kept ++ [x]) rest

/-- Number of units of material s among the terminal materials of one unit
of item x under the weighted reference resolution at recursion bound F
(0 when the bound is exceeded). -/
def cnt (bps : Dict) (F : Nat) (x s : String) : Nat :=
  match resolve_acc bps F x 1 with
  | some l => l.count s
  | none => 0

/-! Concrete collections instantiating the testable properties of the
spec (section 8). -/

/-- Blueprint X needing two Y. -/
def bpX : Blueprint := ⟨"X", "", [("Y", 2)]⟩

/-- Blueprint Y needing three Z. -/
def bpY : Blueprint := ⟨"Y", "", [("Z", 3)]⟩

/-- The nested-expansion collection: X needs two Y, Y needs three Z,
Z is terminal. -/
def cXYZ : Dict := [("X", bpX), ("Y", bpY)]

/-- Blueprint P needing one Q. -/
def bpP : Blueprint := ⟨"P", "", [("Q", 1)]⟩

/-- Blueprint Q needing one P. -/
def bpQ : Blueprint := ⟨"Q", "", [("P", 1)]⟩

/-- The cyclic collection: P needs Q and Q needs P. -/
def cyc : Dict := [("P", bpP), ("Q", bpQ)]

/-- A flat blueprint needing two A and three B, both terminal. -/
def bpFlat : Blueprint := ⟨"W", "", [("A", 2), ("B", 3)]⟩

/-- The flattening-correctness collection. -/
def cFlat : Dict := [("W", bpFlat)]

/-- The Iron Sword blueprint of the keyword-search property. -/
def bpIron : Blueprint := ⟨"Iron Sword", "", [("Scrap", 2)]⟩

/-- The keyword-search collection. -/
def cIron : Dict := [("Iron Sword", bpIron)]

/-- A second blueprint named X, used to exercise duplicate insertion. -/
def bpX2 : Blueprint := ⟨"X", "weapon", [("Q", 5)]⟩

/-! Basic facts about the dict model. -/

/-- A lookup raises KeyError exactly when the membership test fails. -/
theorem lookup_none_iff (d : Dict) (k : String) :
    lookup d k = none ↔ member d k = false := by
  simp [lookup, member, List.find?_eq_none, List.any_eq_false]

/-- A member key has a stored value. -/
theorem member_true_lookup (d : Dict) (k : String) (h : member d k = true) :
    ∃ b, lookup d k = some b := by
  cases hl : lookup d k with
  | some b => exact ⟨b, rfl⟩
  | none =>
    rw [lookup_none_iff] at hl
    rw [hl] at h
    cases h

/-- After the assignment d[k] = v, looking up k yields v. -/
theorem lookup_dictInsert (d : Dict) (k : String) (v : Blueprint) :
    lookup (dictInsert d k v) k = some v := by
  have hpred : ((fun p : String × Blueprint => p.1 == k) ∘
      (fun p : String × Blueprint => if p.1 == k then (k, v) else p)) =
      (fun p : String × Blueprint => p.1 == k) := by
    funext p
    by_cases hp : (p.1 == k) = true
    · have hpp : p.1 = k := by simpa using hp
      simp [hpp]
    · have hpp : ¬p.1 = k := by simpa using hp
      simp [hpp]
  rw [dictInsert]
  by_cases h : member d k = true
  · rw [if_pos h]
    have hs : (List.find? (fun p : String × Blueprint => p.1 == k) d).isSome := by
      rw [List.find?_isSome]
      rcases List.any_eq_true.mp h with ⟨x, hx, hpx⟩
      exact ⟨x, hx, hpx⟩
    cases hf : List.find? (fun p : String × Blueprint => p.1 == k) d with
    | none => rw [hf] at hs; cases hs
    | some p0 =>
      have hp0 : (p0.1 == k) = true := by
        have := List.find?_some hf
        simpa using this
      have hpp : p0.1 = k := by simpa using hp0
      rw [lookup, List.find?_map, hpred, hf]
      simp [hpp]
  · rw [if_neg h]
    have hnone : List.find? (fun p : String × Blueprint => p.1 == k) d = none := by
      have hm : member d k = false := by
        cases hb : member d k
        · rfl
        · exact absurd hb h
      have := (lookup_none_iff d k).mpr hm
      simpa [lookup] using this
    simp [lookup, List.find?_append, hnone, List.find?]

/-- Assignment to an existing key does not change the dict length. -/
theorem size_dictInsert_member (d : Dict) (k : String) (v : Blueprint)
    (h : member d k = true) : size (dictInsert d k v) = size d := by
  simp [size, dictInsert, h]

/-- C5: inserting a blueprint whose name is already a key leaves the size
unchanged and makes the newly inserted blueprint the one visible under
that name (last write wins). -/
theorem add_duplicate_last_write_wins (d : Dict) (b : Blueprint)
    (h : member d b.name = true) :
    size (add_blueprint d b) = size d ∧
    lookup (add_blueprint d b) b.name = some b :=
  ⟨size_dictInsert_member d b.name b h, lookup_dictInsert d b.name b⟩

/-- The duplicate-insertion property at the concrete collection cXYZ. -/
theorem add_duplicate_last_write_wins_witness :
    member cXYZ bpX2.name = true ∧
    size (add_blueprint cXYZ bpX2) = size cXYZ ∧
    lookup (add_blueprint cXYZ bpX2) bpX2.name = some bpX2 :=
  ⟨by decide, (add_duplicate_last_write_wins cXYZ bpX2 (by decide)).1,
    (add_duplicate_last_write_wins cXYZ bpX2 (by decide)).2⟩

/-- C4: resolving a name absent from the collection raises the KeyError
carrying the offending name; resolving a present name never raises it. -/
theorem unknown_item_raises (bps : Dict) (fuel : Nat) (item : String) :
    (member bps item = false → find_materials bps fuel item = .keyError item) ∧
    (member bps item = true → ∀ e, find_materials bps fuel item ≠ .keyError e) := by
  constructor
  · intro h
    rw [find_materials, (lookup_none_iff bps item).mpr h]
  · intro h e
    obtain ⟨b, hb⟩ := member_true_lookup bps item h
    cases hfl : findLoop bps fuel b.materials_list 0 [] with
    | none =>
      simp only [find_materials, hb, hfl]
      exact fun hc => PyResult.noConfusion hc
    | some p =>
      obtain ⟨r, t⟩ := p
      simp only [find_materials, hb, hfl]
      exact fun hc => PyResult.noConfusion hc

/-- The unknown-item property at the concrete collection cXYZ. -/
theorem unknown_item_raises_witness :
    (member cXYZ "Nope" = false ∧
      find_materials cXYZ 10 "Nope" = .keyError "Nope") ∧
    (member cXYZ "X" = true ∧
      find_materials cXYZ 10 "X" ≠ .keyError "X") :=
  ⟨⟨by decide, (unknown_item_raises cXYZ 10 "Nope").1 (by decide)⟩,
    ⟨by decide, (unknown_item_raises cXYZ 10 "X").2 (by decide) "X"⟩⟩

/-- C9: the query operations leave the collection untouched: the state each
state-passing method returns is the state it received, so the mapping from
name to blueprint (names, categories, materials) is identical before and
after; add_blueprint is the only operation computing a new state. -/
theorem queries_leave_state_unchanged (bps : Dict) (fuel : Nat)
    (keyword item : String) :
    (find_keywordS bps fuel keyword).1 = bps ∧
    (find_materialsS bps fuel item).1 = bps ∧
    (sizeS bps).1 = bps ∧
    (add_blueprintS bps ⟨"n", "", []⟩).1 = add_blueprint bps ⟨"n", "", []⟩ :=
  ⟨rfl, rfl, rfl, rfl⟩

/-! pack_list. -/

/-- Looking up s in the table built over an explicit key list. -/
theorem lookupNat_keys_map (l : List String) (s : String) (keys : List String) :
    lookupNat (keys.map (fun k => (k, l.count k))) s =
      if s ∈ keys then l.count s else 0 := by
  induction keys with
  | nil => simp [lookupNat]
  | cons k rest ih =>
    by_cases hk : k = s
    · subst hk
      simp [lookupNat, List.find?_cons]
    · have hbeq : (k == s) = false := by
        simp [hk]
      rw [List.map_cons]
      rw [lookupNat, List.find?_cons]
      simp only [hbeq]
      rw [← lookupNat, ih]
      have hks : ¬s = k := fun hsk => hk hsk.symm
      simp [List.mem_cons, hks]

/-- pack_list maps every string to its number of occurrences. -/
theorem lookupNat_pack_list (l : List String) (s : String) :
    lookupNat (pack_list l) s = l.count s := by
  rw [pack_list, lookupNat_keys_map]
  by_cases h : s ∈ l.dedup
  · simp [h]
  · rw [if_neg h]
    have hs : s ∉ l := fun hs => h (List.mem_dedup.mpr hs)
    exact (List.count_eq_zero.mpr hs).symm

/-- C7: pack_list depends only on the multiset of its input: each key maps
to the total occurrence count, and permuting the input changes neither any
count nor the key set. -/
theorem pack_list_perm_invariant (l l' : List String) (h : l.Perm l') :
    (∀ k, lookupNat (pack_list l) k = l.count k) ∧
    (∀ k, lookupNat (pack_list l) k = lookupNat (pack_list l') k) ∧
    ((pack_list l).map (fun p => p.1)).Perm ((pack_list l').map (fun p => p.1)) := by
  refine ⟨fun k => lookupNat_pack_list l k, fun k => ?_, ?_⟩
  · rw [lookupNat_pack_list, lookupNat_pack_list, h.count_eq]
  · have hcomp : ∀ m : List String,
        ((fun p : String × Nat => p.1) ∘ fun k => (k, m.count k)) =
          fun k => k := fun _ => rfl
    have e1 : (pack_list l).map (fun p => p.1) = l.dedup := by
      rw [pack_list, List.map_map, hcomp, List.map_id']
    have e2 : (pack_list l').map (fun p => p.1) = l'.dedup := by
      rw [pack_list, List.map_map, hcomp, List.map_id']
    rw [e1, e2]
    exact h.dedup

/-- The packing property at a concrete permutation pair. -/
theorem pack_list_perm_invariant_witness :
    lookupNat (pack_list ["a", "b", "a"]) "a" =
      lookupNat (pack_list ["b", "a", "a"]) "a" :=
  (pack_list_perm_invariant ["a", "b", "a"] ["b", "a", "a"] (by decide)).2.1 "a"

/-! Keyword search. -/

/-- C8: keywords with the same lowercased form give identical search
results, and the match set is exactly the stored names containing the
lowercased keyword as a substring of their lowercased form. -/
theorem keyword_case_insensitive (bps : Dict) (fuel : Nat) (k1 k2 : String)
    (h : strLower k1 = strLower k2) :
    find_keyword bps fuel k1 = find_keyword bps fuel k2 ∧
    (∀ name, name ∈ matchedNames bps k1 ↔
      name ∈ bps.map (fun p => p.1) ∧
        strContains (strLower name) (strLower k1) = true) := by
  constructor
  · rw [find_keyword, find_keyword, matchedNames, matchedNames, h]
  · intro name
    rw [matchedNames]
    exact List.mem_filter

/-- Case-insensitivity at the concrete Iron Sword collection. -/
theorem keyword_case_insensitive_witness :
    find_keyword cIron 5 "IRON" = find_keyword cIron 5 "iron" :=
  (keyword_case_insensitive cIron 5 "IRON" "iron" (by decide)).1

/-- The empty needle is a substring of everything. -/
theorem subList_nil_true (hay : List Char) : subList [] hay = true := by
  cases hay <;> simp [subList, List.isPrefixOf]

/-- The empty keyword matches every stored name. -/
theorem matchedNames_empty_keyword (bps : Dict) :
    matchedNames bps "" = bps.map (fun p => p.1) := by
  rw [matchedNames]
  apply List.filter_eq_self.mpr
  intro a _
  exact subList_nil_true (strLower a).data

/-- The keys of the dict built by find_keyword are the matched names. -/
theorem keywordEntries_keys (bps : Dict) (fuel : Nat) :
    ∀ names entries, keywordEntries bps fuel names = some entries →
      entries.map (fun p => p.1) = names := by
  intro names
  induction names with
  | nil =>
    intro entries h
    rw [keywordEntries] at h
    cases h
    simp
  | cons k rest ih =>
    intro entries h
    rw [keywordEntries] at h
    cases hfm : find_materials bps fuel k <;> rw [hfm] at h
    · cases hke : keywordEntries bps fuel rest <;> rw [hke] at h
      · cases h
      · cases h
        simpa using ih _ hke
    · cases h
    · cases h

/-- C10: the empty keyword matches every blueprint: the match set is the
full key list, and whenever the query completes the returned mapping has
exactly one entry per stored name, in storage order. -/
theorem empty_keyword_matches_all (bps : Dict) (fuel : Nat) :
    matchedNames bps "" = bps.map (fun p => p.1) ∧
    (∀ entries, find_keyword bps fuel "" = some entries →
      entries.map (fun p => p.1) = bps.map (fun p => p.1)) := by
  refine ⟨matchedNames_empty_keyword bps, fun entries h => ?_⟩
  rw [find_keyword, matchedNames_empty_keyword] at h
  exact keywordEntries_keys bps fuel _ entries h

/-- The empty-keyword property at the concrete collection cXYZ. -/
theorem empty_keyword_matches_all_witness :
    ([("X", [("Z", 6)]), ("Y", [("Z", 3)])].map
        (fun p : String × List (String × Nat) => p.1)) =
      cXYZ.map (fun p => p.1) :=
  (empty_keyword_matches_all cXYZ 10).2 _ (by decide)

/-! Step equations for the expansion loop. -/

/-- One iteration of the loop while the iterator is inside the list. -/
theorem findLoop_step_lt (bps : Dict) (fuel : Nat) (result : List String)
    (idx : Nat) (tr : List Nat) (h : idx < result.length) :
    findLoop bps (fuel + 1) result idx tr =
      if member bps (result.getD idx "") then
        findLoop bps fuel
          (result ++ (lookupD bps (result.getD idx "")).materials_list)
          (idx + 1) (tr ++ [idx])
      else
        findLoop bps fuel result (idx + 1) tr := by
  have e : findLoop bps (fuel + 1) result idx tr =
      if idx < result.length then
        (if member bps (result.getD idx "") then
          findLoop bps fuel
            (result ++ (lookupD bps (result.getD idx "")).materials_list)
            (idx + 1) (tr ++ [idx])
        else
          findLoop bps fuel result (idx + 1) tr)
      else some (result, tr) := rfl
  rw [e, if_pos h]

/-- The fuel bound hits while the iterator is inside the list. -/
theorem findLoop_step_zero (bps : Dict) (result : List String) (idx : Nat)
    (tr : List Nat) (h : idx < result.length) :
    findLoop bps 0 result idx tr = none := by
  have e : findLoop bps 0 result idx tr =
      if idx < result.length then none else some (result, tr) := rfl
  rw [e, if_pos h]

/-- The loop exits when the iterator reaches the end of the list. -/
theorem findLoop_exit (bps : Dict) (fuel : Nat) (result : List String)
    (idx : Nat) (tr : List Nat) (h : ¬idx < result.length) :
    findLoop bps fuel result idx tr = some (result, tr) := by
  cases fuel with
  | zero =>
    have e : findLoop bps 0 result idx tr =
        if idx < result.length then none else some (result, tr) := rfl
    rw [e, if_neg h]
  | succ fuel =>
    have e : findLoop bps (fuel + 1) result idx tr =
        if idx < result.length then
          (if member bps (result.getD idx "") then
            findLoop bps fuel
              (result ++ (lookupD bps (result.getD idx "")).materials_list)
              (idx + 1) (tr ++ [idx])
          else
            findLoop bps fuel result (idx + 1) tr)
        else some (result, tr) := rfl
    rw [e, if_neg h]

/-- The queue loop returns the kept entries on an empty queue. -/
theorem queueLoop_nil (bps : Dict) (fuel : Nat) (kept : List String) :
    queueLoop bps fuel kept [] = some kept := by
  cases fuel <;> rfl

/-- The queue loop times out on a nonempty queue without fuel. -/
theorem queueLoop_zero (bps : Dict) (kept : List String) (x : String)
    (rest : List String) : queueLoop bps 0 kept (x :: rest) = none := rfl

/-- One step of the queue loop. -/
theorem queueLoop_succ (bps : Dict) (fuel : Nat) (kept : List String)
    (x : String) (rest : List String) :
    queueLoop bps (fuel + 1) kept (x :: rest) =
      if member bps x then
        queueLoop bps fuel kept (rest ++ (lookupD bps x).materials_list)
      else
        queueLoop bps fuel (kept ++ [x]) rest := rfl

/-! C1: on the cyclic collection the loop never terminates. -/

/-- In the P/Q cycle, a list whose entries are all P or Q keeps the
iterator strictly inside the growing list forever, so every fuel bound is
exhausted. -/
theorem cyc_findLoop_none :
    ∀ fuel result (idx : Nat) (tr : List Nat),
      (∀ x ∈ result, x = "P" ∨ x = "Q") → idx < result.length →
      findLoop cyc fuel result idx tr = none := by
  intro fuel
  induction fuel with
  | zero =>
    intro result idx tr _ hidx
    exact findLoop_step_zero cyc result idx tr hidx
  | succ fuel ih =>
    intro result idx tr hmem hidx
    rw [findLoop_step_lt cyc fuel result idx tr hidx]
    have hx : result.getD idx "" ∈ result := by
      rw [List.getD_eq_getElem?_getD, List.getElem?_eq_getElem hidx]
      exact List.getElem_mem hidx
    rcases hmem _ hx with hP | hQ
    · rw [hP, if_pos (show member cyc "P" = true by decide)]
      have hms : (lookupD cyc "P").materials_list = ["Q"] := rfl
      rw [hms]
      apply ih
      · intro x hxm
        rcases List.mem_append.mp hxm with h1 | h2
        · exact hmem x h1
        · rw [List.mem_singleton] at h2
          exact Or.inr h2
      · rw [List.length_append]
        simp only [List.length_singleton]
        omega
    · rw [hQ, if_pos (show member cyc "Q" = true by decide)]
      have hms : (lookupD cyc "Q").materials_list = ["P"] := rfl
      rw [hms]
      apply ih
      · intro x hxm
        rcases List.mem_append.mp hxm with h1 | h2
        · exact hmem x h1
        · rw [List.mem_singleton] at h2
          exact Or.inl h2
      · rw [List.length_append]
        simp only [List.length_singleton]
        omega

/-- C1 (code behaviour): on the cyclic collection P needs Q, Q needs P,
resolution never finishes: for every iteration bound the run times out,
whichever of the two items is resolved.  The code raises no cycle error;
it expands forever. -/
theorem cyclic_resolution_never_terminates :
    (∀ fuel, find_materials cyc fuel "P" = .timeout) ∧
    (∀ fuel, find_materials cyc fuel "Q" = .timeout) := by
  constructor
  · intro fuel
    have h := cyc_findLoop_none fuel bpP.materials_list 0 []
      (by decide) (by decide)
    simp only [find_materials, show lookup cyc "P" = some bpP from rfl, h]
  · intro fuel
    have h := cyc_findLoop_none fuel bpQ.materials_list 0 []
      (by decide) (by decide)
    simp only [find_materials, show lookup cyc "Q" = some bpQ from rfl, h]

/-! C6: blueprints whose ingredients are all terminal. -/

/-- Reading every position of a list back in order rebuilds the list. -/
theorem map_getD_range (l : List String) :
    (List.range l.length).map (fun i => l.getD i "") = l := by
  induction l with
  | nil => rfl
  | cons x xs ih =>
    rw [List.length_cons, List.range_succ_eq_map, List.map_cons, List.map_map]
    have hc : ((fun i => (x :: xs).getD i "") ∘ Nat.succ) =
        fun i => xs.getD i "" := by
      funext i
      simp [List.getD_cons_succ]
    rw [List.getD_cons_zero, hc, ih]

/-- With an empty to_remove list the final comprehension is the identity. -/
theorem filterOut_nil_tr (result : List String) : filterOut result [] = result := by
  rw [filterOut]
  have hfil : (List.range result.length).filter
      (fun i => decide (i ∉ ([] : List Nat))) = List.range result.length := by
    apply List.filter_eq_self.mpr
    intro a _
    simp
  rw [hfil]
  exact map_getD_range result

/-- When no entry of the list is craftable the loop only advances the
iterator: nothing is appended and nothing is marked for removal. -/
theorem findLoop_no_expansion (bps : Dict) :
    ∀ fuel result (idx : Nat) (tr : List Nat),
      (∀ x ∈ result, member bps x = false) →
      result.length - idx ≤ fuel →
      findLoop bps fuel result idx tr = some (result, tr) := by
  intro fuel
  induction fuel with
  | zero =>
    intro result idx tr _ hf
    exact findLoop_exit bps 0 result idx tr (by omega)
  | succ fuel ih =>
    intro result idx tr hterm hf
    by_cases hidx : idx < result.length
    · rw [findLoop_step_lt bps fuel result idx tr hidx]
      have hx : result.getD idx "" ∈ result := by
        rw [List.getD_eq_getElem?_getD, List.getElem?_eq_getElem hidx]
        exact List.getElem_mem hidx
      have hm := hterm _ hx
      have hcond : ¬member bps (result.getD idx "") = true := by
        rw [hm]
        exact Bool.false_ne_true
      rw [if_neg hcond]
      exact ih result (idx + 1) tr hterm (by omega)
    · exact findLoop_exit bps (fuel + 1) result idx tr hidx

/-- A name absent from the keys contributes no occurrence to the flat
materials list. -/
theorem count_matsList_not_mem (mats : List (String × Nat)) (m : String)
    (h : m ∉ mats.map (fun p => p.1)) :
    ((mats.map (fun p => List.replicate p.2 p.1)).flatten).count m = 0 := by
  induction mats with
  | nil => rfl
  | cons p rest ih =>
    rw [List.map_cons, List.flatten_cons, List.count_append]
    rw [List.map_cons] at h
    have hp : ¬p.1 = m := by
      intro he
      exact h (List.mem_cons.mpr (Or.inl he.symm))
    have hrest : m ∉ rest.map (fun p => p.1) := by
      intro he
      exact h (List.mem_cons.mpr (Or.inr he))
    rw [List.count_replicate, if_neg (by simpa using hp), ih hrest]

/-- With distinct keys, each ingredient occurs in the flat materials list
exactly its required quantity many times. -/
theorem count_materials_list (mats : List (String × Nat))
    (h4 : (mats.map (fun p => p.1)).Nodup) (m : String) (k : Nat)
    (hmk : (m, k) ∈ mats) :
    ((mats.map (fun p => List.replicate p.2 p.1)).flatten).count m = k := by
  induction mats with
  | nil => cases hmk
  | cons p rest ih =>
    rw [List.map_cons, List.flatten_cons, List.count_append]
    rw [List.map_cons] at h4
    have hnd := List.nodup_cons.mp h4
    rcases List.mem_cons.mp hmk with he | hrest
    · rw [← he]
      rw [List.count_replicate, if_pos (by simp)]
      have hnm : m ∉ rest.map (fun p => p.1) := by
        rw [← he] at hnd
        exact hnd.1
      rw [count_matsList_not_mem rest m hnm]
      simp
    · have hm : m ∈ rest.map (fun p => p.1) :=
        List.mem_map.mpr ⟨(m, k), hrest, rfl⟩
      have hp : ¬p.1 = m := by
        intro he2
        rw [he2] at hnd
        exact hnd.1 hm
      rw [List.count_replicate, if_neg (by simpa using hp)]
      rw [ih hnd.2 hrest]
      omega

/-- C6: a blueprint whose materials are all terminal resolves to exactly
its flat direct-ingredient list, each ingredient name appearing exactly its
required quantity many times. -/
theorem flat_blueprint_resolution (bps : Dict) (fuel : Nat) (item : String)
    (b : Blueprint)
    (h1 : lookup bps item = some b)
    (h2 : ∀ x ∈ b.materials_list, member bps x = false)
    (h3 : b.materials_list.length ≤ fuel)
    (h4 : (b.materials.map (fun p => p.1)).Nodup) :
    find_materials bps fuel item = .ok b.materials_list ∧
    ∀ m k, (m, k) ∈ b.materials → b.materials_list.count m = k := by
  constructor
  · have hloop := findLoop_no_expansion bps fuel b.materials_list 0 [] h2
      (by omega)
    simp only [find_materials, h1, hloop]
    rw [filterOut_nil_tr]
  · intro m k hmk
    exact count_materials_list b.materials h4 m k hmk

/-- The flattening property at the concrete collection cFlat: W needs two
A and three B, both terminal. -/
theorem flat_blueprint_resolution_witness :
    find_materials cFlat 5 "W" = .ok bpFlat.materials_list ∧
    bpFlat.materials_list.count "A" = 2 ∧
    bpFlat.materials_list.count "B" = 3 := by
  have h := flat_blueprint_resolution cFlat 5 "W" bpFlat (by decide)
    (by decide) (by decide) (by decide)
  exact ⟨h.1, h.2 "A" 2 (by decide), h.2 "B" 3 (by decide)⟩

/-! The final comprehension under the loop transformations. -/

/-- Positions inside the left part of an appended list read from it. -/
theorem map_getD_append (l ms : List String) (idxs : List Nat)
    (h : ∀ i ∈ idxs, i < l.length) :
    idxs.map (fun i => (l ++ ms).getD i "") = idxs.map (fun i => l.getD i "") := by
  apply List.map_congr_left
  intro i hi
  rw [List.getD_eq_getElem?_getD, List.getD_eq_getElem?_getD,
    List.getElem?_append, if_pos (h i hi)]

/-- Appending beyond every removed index appends to the comprehension. -/
theorem filterOut_append (result ms : List String) (tr : List Nat)
    (h : ∀ j ∈ tr, j < result.length) :
    filterOut (result ++ ms) tr = filterOut result tr ++ ms := by
  rw [filterOut, filterOut, List.length_append, List.range_add,
    List.filter_append, List.map_append]
  congr 1
  · apply List.map_congr_left
    intro i hi
    have hi2 : i < result.length := List.mem_range.mp (List.mem_filter.mp hi).1
    rw [List.getD_eq_getElem?_getD, List.getD_eq_getElem?_getD,
      List.getElem?_append, if_pos hi2]
  · have hfil : ((List.range ms.length).map
        (fun x => result.length + x)).filter (fun i => decide (i ∉ tr)) =
        (List.range ms.length).map (fun x => result.length + x) := by
      apply List.filter_eq_self.mpr
      intro a ha
      rcases List.mem_map.mp ha with ⟨i, _, rfl⟩
      simp only [decide_eq_true_eq]
      intro hmem
      exact absurd (h _ hmem) (by omega)
    rw [hfil, List.map_map]
    have hc : ((fun i => (result ++ ms).getD i "") ∘
        (fun x => result.length + x)) = fun i => ms.getD i "" := by
      funext i
      simp only [Function.comp]
      rw [List.getD_eq_getElem?_getD, List.getD_eq_getElem?_getD,
        List.getElem?_append, if_neg (by omega), Nat.add_sub_cancel_left]
    rw [hc, map_getD_range]

/-- Indices at or beyond the end of the list are irrelevant to the
comprehension. -/
theorem filterOut_tr_irrelevant (l : List String) (tr : List Nat) (j : Nat)
    (h : l.length ≤ j) :
    filterOut l (tr ++ [j]) = filterOut l tr := by
  rw [filterOut, filterOut]
  congr 1
  apply List.filter_congr
  intro i hi
  have hij : i ≠ j := by
    have := List.mem_range.mp hi
    omega
  rw [decide_eq_decide]
  simp only [List.mem_append, List.mem_singleton]
  tauto

/-- Removing exactly the appended position cancels the append. -/
theorem filterOut_snoc_drop (l : List String) (x : String) (tr : List Nat)
    (n : Nat) (hn : l.length = n) (h : ∀ j ∈ tr, j < n) :
    filterOut (l ++ [x]) (tr ++ [n]) = filterOut l tr := by
  subst hn
  have hlen : (l ++ [x]).length = l.length + 1 := by simp
  rw [filterOut, filterOut, hlen, List.range_succ, List.filter_append]
  have h2 : ([l.length].filter (fun i => decide (i ∉ tr ++ [l.length]))) = [] := by
    simp [List.mem_append]
  have h1 : (List.range l.length).filter
      (fun i => decide (i ∉ tr ++ [l.length])) =
      (List.range l.length).filter (fun i => decide (i ∉ tr)) := by
    apply List.filter_congr
    intro i hi
    have hij : i ≠ l.length := by
      have := List.mem_range.mp hi
      omega
    rw [decide_eq_decide]
    simp only [List.mem_append, List.mem_singleton]
    tauto
  rw [h2, h1, List.append_nil]
  apply List.map_congr_left
  intro i hi
  have hi2 : i < l.length := List.mem_range.mp (List.mem_filter.mp hi).1
  rw [List.getD_eq_getElem?_getD, List.getD_eq_getElem?_getD,
    List.getElem?_append, if_pos hi2]

/-- Taking one more element splits off the element at the iterator. -/
theorem take_succ_getD (l : List String) (idx : Nat) (h : idx < l.length) :
    l.take (idx + 1) = l.take idx ++ [l.getD idx ""] := by
  rw [List.take_succ]
  congr 1
  rw [List.getElem?_eq_getElem h]
  rw [List.getD_eq_getElem?_getD, List.getElem?_eq_getElem h]
  rfl

/-- Dropping splits off the element at the iterator. -/
theorem drop_eq_getD_cons (l : List String) (idx : Nat) (h : idx < l.length) :
    l.drop idx = l.getD idx "" :: l.drop (idx + 1) := by
  rw [List.drop_eq_getElem_cons h, List.getD_eq_getElem?_getD,
    List.getElem?_eq_getElem h]
  rfl

/-! The index-based loop agrees with its queue reformulation. -/

/-- The entries of the live list behind the iterator and not marked for
removal are the kept entries; the entries from the iterator on are the
pending queue.  Under that correspondence findLoop followed by the final
comprehension is exactly queueLoop. -/
theorem findLoop_eq_queueLoop (bps : Dict) :
    ∀ fuel result (idx : Nat) (tr : List Nat),
      (∀ j ∈ tr, j < idx) → idx ≤ result.length →
      (findLoop bps fuel result idx tr).map (fun p => filterOut p.1 p.2) =
        queueLoop bps fuel (filterOut (result.take idx) tr) (result.drop idx) := by
  intro fuel
  induction fuel with
  | zero =>
    intro result idx tr htr hle
    by_cases hidx : idx < result.length
    · rw [findLoop_step_zero bps result idx tr hidx,
        drop_eq_getD_cons result idx hidx, queueLoop_zero]
      rfl
    · have hlen : idx = result.length := by omega
      rw [findLoop_exit bps 0 result idx tr hidx, hlen, List.drop_length,
        queueLoop_nil, List.take_length]
      rfl
  | succ fuel ih =>
    intro result idx tr htr hle
    by_cases hidx : idx < result.length
    · rw [findLoop_step_lt bps fuel result idx tr hidx,
        drop_eq_getD_cons result idx hidx, queueLoop_succ]
      have hlt : (result.take idx).length = idx := by
        rw [List.length_take]
        omega
      by_cases hm : member bps (result.getD idx "") = true
      · rw [if_pos hm, if_pos hm]
        have htr2 : ∀ j ∈ tr ++ [idx], j < idx + 1 := by
          intro j hj
          rcases List.mem_append.mp hj with hj1 | hj2
          · exact Nat.lt_succ_of_lt (htr j hj1)
          · rw [List.mem_singleton] at hj2
            omega
        have hle2 : idx + 1 ≤
            (result ++ (lookupD bps (result.getD idx "")).materials_list).length := by
          rw [List.length_append]
          omega
        rw [ih _ _ _ htr2 hle2]
        congr 1
        · rw [List.take_append_of_le_length (by omega),
            take_succ_getD result idx hidx]
          apply filterOut_snoc_drop
          · exact hlt
          · intro j hj
            exact htr j hj
        · rw [List.drop_append_of_le_length (by omega)]
      · rw [if_neg hm, if_neg hm]
        have htr2 : ∀ j ∈ tr, j < idx + 1 :=
          fun j hj => Nat.lt_succ_of_lt (htr j hj)
        rw [ih _ _ _ htr2 (by omega)]
        congr 1
        rw [take_succ_getD result idx hidx]
        apply filterOut_append
        intro j hj
        rw [hlt]
        exact htr j hj
    · have hlen : idx = result.length := by omega
      rw [findLoop_exit bps (fuel + 1) result idx tr hidx, hlen,
        List.drop_length, queueLoop_nil, List.take_length]
      rfl

/-- Entries the queue loop keeps are all terminal. -/
theorem queueLoop_terminal_out (bps : Dict) :
    ∀ fuel kept queue out,
      queueLoop bps fuel kept queue = some out →
      (∀ x ∈ kept, member bps x = false) →
      ∀ x ∈ out, member bps x = false := by
  intro fuel
  induction fuel with
  | zero =>
    intro kept queue out h hk
    cases queue with
    | nil =>
      rw [queueLoop_nil] at h
      cases h
      exact hk
    | cons a rest =>
      rw [queueLoop_zero] at h
      cases h
  | succ fuel ih =>
    intro kept queue out h hk
    cases queue with
    | nil =>
      rw [queueLoop_nil] at h
      cases h
      exact hk
    | cons a rest =>
      rw [queueLoop_succ] at h
      by_cases hm : member bps a = true
      · rw [if_pos hm] at h
        exact ih _ _ _ h hk
      · rw [if_neg hm] at h
        refine ih _ _ _ h ?_
        intro x hx
        rcases List.mem_append.mp hx with h1 | h2
        · exact hk x h1
        · rw [List.mem_singleton] at h2
          rw [h2]
          exact Bool.eq_false_iff.mpr hm

/-- A successful resolution yields only terminal names: every entry of the
returned list is absent from the collection keys. -/
theorem find_materials_ok_terminal (bps : Dict) (fuel : Nat) (item : String)
    (out : List String) (h : find_materials bps fuel item = .ok out) :
    ∀ x ∈ out, member bps x = false := by
  cases hb : lookup bps item with
  | none =>
    rw [find_materials, hb] at h
    cases h
  | some b =>
    cases hfl : findLoop bps fuel b.materials_list 0 [] with
    | none =>
      simp only [find_materials, hb, hfl] at h
      cases h
    | some p =>
      obtain ⟨r, t⟩ := p
      simp only [find_materials, hb, hfl] at h
      have hsim := findLoop_eq_queueLoop bps fuel b.materials_list 0 []
        (by intro j hj; cases hj) (Nat.zero_le _)
      rw [hfl] at hsim
      simp only [List.take_zero, List.drop_zero] at hsim
      have hkept : filterOut ([] : List String) ([] : List Nat) = [] := rfl
      rw [hkept] at hsim
      have hq : queueLoop bps fuel [] b.materials_list = some (filterOut r t) :=
        hsim.symm
      cases h
      exact queueLoop_terminal_out bps fuel [] b.materials_list
        (filterOut r t) hq (by intro x hx; cases hx)

/-- C3: nested multiplicities multiply: in the collection where X needs two
Y, Y needs three Z and Z is terminal, resolving X yields exactly six Z and
no Y; in general a successful resolution contains no intermediate
(craftable) name. -/
theorem nested_expansion_multiplies :
    find_materials cXYZ 12 "X" = .ok (List.replicate 6 "Z") ∧
    (List.replicate 6 "Z").count "Z" = 6 ∧
    (List.replicate 6 "Z").count "Y" = 0 ∧
    (∀ bps fuel item out, find_materials bps fuel item = .ok out →
      ∀ x ∈ out, member bps x = false) := by
  refine ⟨by decide, by decide, by decide, ?_⟩
  intro bps fuel item out h
  exact find_materials_ok_terminal bps fuel item out h

/-- The no-intermediate part of the nested-expansion property applied at
the concrete collection cXYZ. -/
theorem nested_expansion_multiplies_witness :
    member cXYZ "Z" = false :=
  nested_expansion_multiplies.2.2.2 cXYZ 12 "X" (List.replicate 6 "Z")
    nested_expansion_multiplies.1 "Z" (by decide)

/-! C2: the list-expansion resolution refines the integer-weighted
reference resolution.  Equations for the reference resolver first. -/

/-- The reference resolver times out without fuel. -/
theorem resolve_acc_zero (bps : Dict) (name : String) (qty : Nat) :
    resolve_acc bps 0 name qty = none := rfl

/-- One step of the reference resolver. -/
theorem resolve_acc_succ (bps : Dict) (fuel : Nat) (name : String) (qty : Nat) :
    resolve_acc bps (fuel + 1) name qty =
      match lookup bps name with
      | none => some (List.replicate qty name)
      | some b => resolveStep (resolve_acc bps fuel) b.materials qty := rfl

/-- A terminal name yields itself, qty times. -/
theorem resolve_acc_terminal (bps : Dict) (fuel : Nat) (name : String)
    (qty : Nat) (h : lookup bps name = none) :
    resolve_acc bps (fuel + 1) name qty = some (List.replicate qty name) := by
  rw [resolve_acc_succ, h]

/-- A craftable name recurses through its materials. -/
theorem resolve_acc_key (bps : Dict) (fuel : Nat) (name : String) (qty : Nat)
    (b : Blueprint) (h : lookup bps name = some b) :
    resolve_acc bps (fuel + 1) name qty =
      resolveStep (resolve_acc bps fuel) b.materials qty := by
  rw [resolve_acc_succ, h]

/-- The empty materials fold. -/
theorem resolveStep_nil (f : String → Nat → Option (List String)) (qty : Nat) :
    resolveStep f [] qty = some [] := rfl

/-- One materials-fold step. -/
theorem resolveStep_cons (f : String → Nat → Option (List String))
    (m : String) (k : Nat) (rest : List (String × Nat)) (qty : Nat) :
    resolveStep f ((m, k) :: rest) qty =
      match f m (qty * k), resolveStep f rest qty with
      | some a, some b => some (a ++ b)
      | _, _ => none := rfl

/-- A fold at accumulated quantity zero contributes no occurrence. -/
theorem resolveStep_count_zero (f : String → Nat → Option (List String))
    (hf : ∀ m k l, f m (0 * k) = some l → ∀ s, l.count s = 0) :
    ∀ mats l, resolveStep f mats 0 = some l → ∀ s, l.count s = 0 := by
  intro mats
  induction mats with
  | nil =>
    intro l h s
    rw [resolveStep_nil] at h
    cases h
    rfl
  | cons p rest ih =>
    intro l h s
    obtain ⟨m, k⟩ := p
    rw [resolveStep_cons] at h
    cases ha : f m (0 * k) with
    | none => rw [ha] at h; cases h
    | some a =>
      cases hb : resolveStep f rest 0 with
      | none => rw [ha, hb] at h; cases h
      | some b2 =>
        rw [ha, hb] at h
        cases h
        rw [List.count_append, hf m k a ha s, ih b2 hb s]

/-- Resolving with accumulated quantity zero contributes no occurrence. -/
theorem resolve_acc_count_qty_zero (bps : Dict) :
    ∀ fuel name l, resolve_acc bps fuel name 0 = some l →
      ∀ s, l.count s = 0 := by
  intro fuel
  induction fuel with
  | zero =>
    intro name l h
    rw [resolve_acc_zero] at h
    cases h
  | succ fuel ih =>
    intro name l h s
    cases hb : lookup bps name with
    | none =>
      rw [resolve_acc_terminal bps fuel name 0 hb] at h
      cases h
      rfl
    | some b =>
      rw [resolve_acc_key bps fuel name 0 b hb] at h
      refine resolveStep_count_zero (resolve_acc bps fuel) ?_ b.materials l h s
      intro m k l2 h2 s2
      rw [Nat.zero_mul] at h2
      exact ih m l2 h2 s2

/-- A fold succeeds under any resolver refining the current one. -/
theorem resolveStep_mono (f g : String → Nat → Option (List String))
    (hfg : ∀ m q l, f m q = some l → g m q = some l) :
    ∀ mats qty l, resolveStep f mats qty = some l →
      resolveStep g mats qty = some l := by
  intro mats
  induction mats with
  | nil =>
    intro qty l h
    exact h
  | cons p rest ih =>
    intro qty l h
    obtain ⟨m, k⟩ := p
    rw [resolveStep_cons] at h ⊢
    cases ha : f m (qty * k) with
    | none => rw [ha] at h; cases h
    | some a =>
      cases hb : resolveStep f rest qty with
      | none => rw [ha, hb] at h; cases h
      | some b2 =>
        rw [ha, hb] at h
        rw [hfg m _ a ha, ih qty b2 hb]
        exact h

/-- A successful resolution is stable under one more unit of fuel (and
returns the same list). -/
theorem resolve_acc_succ_stable (bps : Dict) :
    ∀ fuel name qty l, resolve_acc bps fuel name qty = some l →
      resolve_acc bps (fuel + 1) name qty = some l := by
  intro fuel
  induction fuel with
  | zero =>
    intro name qty l h
    rw [resolve_acc_zero] at h
    cases h
  | succ fuel ih =>
    intro name qty l h
    cases hb : lookup bps name with
    | none =>
      rw [resolve_acc_terminal _ _ _ _ hb] at h
      rw [resolve_acc_terminal _ _ _ _ hb]
      exact h
    | some b =>
      rw [resolve_acc_key _ _ _ _ b hb] at h
      rw [resolve_acc_key _ _ _ _ b hb]
      exact resolveStep_mono _ _ (fun m q l2 h2 => ih m q l2 h2)
        b.materials qty l h

/-- A successful resolution is stable under any larger fuel bound. -/
theorem resolve_acc_mono (bps : Dict) (fuel fuel' : Nat) (h : fuel ≤ fuel')
    (name : String) (qty : Nat) (l : List String)
    (hl : resolve_acc bps fuel name qty = some l) :
    resolve_acc bps fuel' name qty = some l := by
  induction fuel' with
  | zero =>
    have h0 : fuel = 0 := by omega
    subst h0
    exact hl
  | succ f ih =>
    by_cases hf : fuel = f + 1
    · subst hf
      exact hl
    · have hle : fuel ≤ f := by omega
      exact resolve_acc_succ_stable bps f name qty l (ih hle)

/-- Scaling the accumulated quantity through a fold scales every count. -/
theorem resolveStep_scale (f : String → Nat → Option (List String))
    (hz : ∀ m l, f m 0 = some l → ∀ s, l.count s = 0)
    (hf : ∀ m qq qq' l, f m qq = some l →
      ∃ u, f m qq' = some u ∧ ∀ s, qq' * l.count s = qq * u.count s)
    (q q' : Nat) :
    ∀ mats l, resolveStep f mats q = some l →
      ∃ u, resolveStep f mats q' = some u ∧
        ∀ s, q' * l.count s = q * u.count s := by
  intro mats
  induction mats with
  | nil =>
    intro l h
    rw [resolveStep_nil] at h
    cases h
    exact ⟨[], rfl, fun s => by simp⟩
  | cons p rest ih =>
    intro l h
    obtain ⟨m, k⟩ := p
    rw [resolveStep_cons] at h
    cases ha : f m (q * k) with
    | none => rw [ha] at h; cases h
    | some a =>
      cases hb : resolveStep f rest q with
      | none => rw [ha, hb] at h; cases h
      | some b2 =>
        rw [ha, hb] at h
        cases h
        obtain ⟨ua, hua, hsa⟩ := hf m (q * k) (q' * k) a ha
        obtain ⟨ub, hub, hsb⟩ := ih b2 hb
        refine ⟨ua ++ ub, ?_, ?_⟩
        · rw [resolveStep_cons, hua, hub]
        · intro s
          rw [List.count_append, List.count_append, Nat.mul_add, Nat.mul_add]
          have hcomp : q' * a.count s = q * ua.count s := by
            by_cases hk : k = 0
            · subst hk
              rw [Nat.mul_zero] at ha hua
              rw [hz m a ha s, hz m ua hua s]
              simp
            · have h2 : k * (q' * a.count s) = k * (q * ua.count s) := by
                calc k * (q' * a.count s) = (q' * k) * a.count s := by ring
                _ = (q * k) * ua.count s := hsa s
                _ = k * (q * ua.count s) := by ring
              exact Nat.eq_of_mul_eq_mul_left (Nat.pos_of_ne_zero hk) h2
          rw [hcomp, hsb s]

/-- Scaling the accumulated quantity scales every count of the reference
resolution: resolving n units is n resolutions of one unit, countwise. -/
theorem resolve_acc_scale (bps : Dict) :
    ∀ fuel name q q' l, resolve_acc bps fuel name q = some l →
      ∃ u, resolve_acc bps fuel name q' = some u ∧
        ∀ s, q' * l.count s = q * u.count s := by
  intro fuel
  induction fuel with
  | zero =>
    intro name q q' l h
    rw [resolve_acc_zero] at h
    cases h
  | succ fuel ih =>
    intro name q q' l h
    cases hb : lookup bps name with
    | none =>
      rw [resolve_acc_terminal _ _ _ _ hb] at h
      cases h
      refine ⟨List.replicate q' name, resolve_acc_terminal _ _ _ _ hb, ?_⟩
      intro s
      rw [List.count_replicate, List.count_replicate]
      by_cases hs : (name == s) = true
      · rw [if_pos hs, if_pos hs]
        ring
      · rw [if_neg hs, if_neg hs]
        simp
    | some b =>
      rw [resolve_acc_key _ _ _ _ b hb] at h
      obtain ⟨u, hu, hsu⟩ := resolveStep_scale (resolve_acc bps fuel)
        (fun m l2 h2 s2 => resolve_acc_count_qty_zero bps fuel m l2 h2 s2)
        (fun m qq qq' l2 h2 => ih m qq qq' l2 h2) q q' b.materials l h
      refine ⟨u, ?_, hsu⟩
      rw [resolve_acc_key _ _ _ _ b hb]
      exact hu

/-- Reading cnt off a successful resolution. -/
theorem cnt_eq_some (bps : Dict) (F : Nat) (x s : String) (l : List String)
    (h : resolve_acc bps F x 1 = some l) :
    cnt bps F x s = l.count s := by
  simp only [cnt, h]

/-- cnt of a terminal name is its indicator. -/
theorem cnt_terminal (bps : Dict) (F : Nat) (x s : String) (hF : 1 ≤ F)
    (hx : lookup bps x = none) :
    cnt bps F x s = if x == s then 1 else 0 := by
  obtain ⟨f, rfl⟩ : ∃ f, F = f + 1 := ⟨F - 1, by omega⟩
  rw [cnt_eq_some bps (f + 1) x s (List.replicate 1 x)
    (resolve_acc_terminal bps f x 1 hx)]
  rw [List.count_replicate]

/-- Unfolding a fold at quantity one against the flat materials list:
every ingredient occurrence resolves (with one more unit of fuel) and the
counts of the fold are the ingredient-wise sums. -/
theorem resolveStep_one_materials (bps : Dict) (f : Nat) :
    ∀ mats l, resolveStep (resolve_acc bps f) mats 1 = some l →
      (∀ m ∈ (mats.map (fun p => List.replicate p.2 p.1)).flatten,
        (resolve_acc bps (f + 1) m 1).isSome = true) ∧
      ∀ s, l.count s =
        (((mats.map (fun p => List.replicate p.2 p.1)).flatten).map
          (fun m => cnt bps (f + 1) m s)).sum := by
  intro mats
  induction mats with
  | nil =>
    intro l h
    rw [resolveStep_nil] at h
    cases h
    refine ⟨?_, fun s => rfl⟩
    intro m hm
    cases hm
  | cons p rest ih =>
    intro l h
    obtain ⟨m, k⟩ := p
    rw [resolveStep_cons] at h
    cases ha : resolve_acc bps f m (1 * k) with
    | none => rw [ha] at h; cases h
    | some a =>
      cases hb : resolveStep (resolve_acc bps f) rest 1 with
      | none => rw [ha, hb] at h; cases h
      | some b2 =>
        rw [ha, hb] at h
        cases h
        obtain ⟨hmemb, hcountb⟩ := ih b2 hb
        obtain ⟨u, hu, hsu⟩ := resolve_acc_scale bps f m (1 * k) 1 a ha
        have hcount_a : ∀ s, a.count s = k * u.count s := by
          intro s
          have h0 := hsu s
          rw [Nat.one_mul, Nat.one_mul] at h0
          exact h0
        have huF : resolve_acc bps (f + 1) m 1 = some u :=
          resolve_acc_succ_stable bps f m 1 u hu
        constructor
        · intro m2 hm2
          rw [List.map_cons, List.flatten_cons] at hm2
          rcases List.mem_append.mp hm2 with h1 | h2
          · rw [List.eq_of_mem_replicate h1, huF]
            rfl
          · exact hmemb m2 h2
        · intro s
          rw [List.map_cons, List.flatten_cons, List.count_append,
            List.map_append, List.sum_append]
          congr 1
          · rw [List.map_replicate, List.sum_replicate, smul_eq_mul]
            rw [cnt_eq_some bps (f + 1) m s u huF]
            exact hcount_a s
          · exact hcountb s

/-- Unfolding one resolved craftable item against its materials list. -/
theorem resolve_acc_key_unfold (bps : Dict) (F : Nat) (x : String)
    (b : Blueprint) (l : List String)
    (hb : lookup bps x = some b) (hl : resolve_acc bps F x 1 = some l) :
    (∀ m ∈ b.materials_list, (resolve_acc bps F m 1).isSome = true) ∧
    ∀ s, l.count s = (b.materials_list.map (fun m => cnt bps F m s)).sum := by
  cases F with
  | zero =>
    rw [resolve_acc_zero] at hl
    cases hl
  | succ f =>
    rw [resolve_acc_key _ _ _ _ b hb] at hl
    exact resolveStep_one_materials bps f b.materials l hl

/-- Over terminal names the cnt sums collapse to plain counting. -/
theorem cnt_sum_terminal (bps : Dict) (F : Nat) (hF : 1 ≤ F) :
    ∀ l : List String, (∀ x ∈ l, lookup bps x = none) →
      ∀ s, (l.map (fun x => cnt bps F x s)).sum = l.count s := by
  intro l
  induction l with
  | nil =>
    intro _ s
    rfl
  | cons x xs ih =>
    intro h s
    rw [List.map_cons, List.sum_cons, List.count_cons]
    rw [cnt_terminal bps F x s hF (h x (List.mem_cons_self x xs))]
    rw [ih (fun y hy => h y (List.mem_cons_of_mem x hy)) s]
    exact Nat.add_comm _ _

/-- The conservation invariant of the queue loop: the final count of every
material equals the cnt sum over kept and pending entries. -/
theorem queueLoop_count (bps : Dict) (F : Nat) (hF : 1 ≤ F) :
    ∀ fuel kept queue out,
      queueLoop bps fuel kept queue = some out →
      (∀ x ∈ kept, lookup bps x = none) →
      (∀ x ∈ queue, (resolve_acc bps F x 1).isSome = true) →
      ∀ s, out.count s =
        (kept.map (fun x => cnt bps F x s)).sum +
          (queue.map (fun x => cnt bps F x s)).sum := by
  intro fuel
  induction fuel with
  | zero =>
    intro kept queue out h hk hq s
    cases queue with
    | nil =>
      rw [queueLoop_nil] at h
      cases h
      rw [List.map_nil, List.sum_nil, Nat.add_zero]
      exact (cnt_sum_terminal bps F hF kept hk s).symm
    | cons a rest =>
      rw [queueLoop_zero] at h
      cases h
  | succ fuel ih =>
    intro kept queue out h hk hq s
    cases queue with
    | nil =>
      rw [queueLoop_nil] at h
      cases h
      rw [List.map_nil, List.sum_nil, Nat.add_zero]
      exact (cnt_sum_terminal bps F hF kept hk s).symm
    | cons a rest =>
      rw [queueLoop_succ] at h
      by_cases hm : member bps a = true
      · rw [if_pos hm] at h
        obtain ⟨b, hb⟩ := member_true_lookup bps a hm
        have hGa : (resolve_acc bps F a 1).isSome = true :=
          hq a (List.mem_cons_self a rest)
        obtain ⟨la, hla⟩ : ∃ la, resolve_acc bps F a 1 = some la := by
          cases hro : resolve_acc bps F a 1 with
          | none => rw [hro] at hGa; cases hGa
          | some v => exact ⟨v, rfl⟩
        obtain ⟨hmemb, hcnt⟩ := resolve_acc_key_unfold bps F a b la hb hla
        have hld : lookupD bps a = b := by
          rw [lookupD, hb]
          rfl
        rw [hld] at h
        have hq2 : ∀ x ∈ rest ++ b.materials_list,
            (resolve_acc bps F x 1).isSome = true := by
          intro x hx
          rcases List.mem_append.mp hx with h1 | h2
          · exact hq x (List.mem_cons_of_mem a h1)
          · exact hmemb x h2
        have hout := ih kept (rest ++ b.materials_list) out h hk hq2 s
        rw [hout, List.map_append, List.sum_append]
        rw [List.map_cons, List.sum_cons]
        have hca : cnt bps F a s =
            (b.materials_list.map (fun m => cnt bps F m s)).sum := by
          rw [cnt_eq_some bps F a s la hla]
          exact hcnt s
        rw [hca]
        omega
      · rw [if_neg hm] at h
        have hla : lookup bps a = none :=
          (lookup_none_iff bps a).mpr (Bool.eq_false_iff.mpr hm)
        have hk2 : ∀ x ∈ kept ++ [a], lookup bps x = none := by
          intro x hx
          rcases List.mem_append.mp hx with h1 | h2
          · exact hk x h1
          · rw [List.mem_singleton] at h2
            rw [h2]
            exact hla
        have hq2 : ∀ x ∈ rest, (resolve_acc bps F x 1).isSome = true :=
          fun x hx => hq x (List.mem_cons_of_mem a hx)
        have hout := ih (kept ++ [a]) rest out h hk2 hq2 s
        rw [hout, List.map_append, List.sum_append]
        rw [List.map_cons, List.sum_cons]
        simp only [List.map_cons, List.map_nil, List.sum_cons, List.sum_nil]
        omega

/-- C2: on any collection, whenever both the list-expansion resolution of
an item (at some iteration bound) and the integer-weighted reference
resolution with a quantity accumulator (at some recursion bound) complete
— which is the case exactly on acyclic reachable data — the pack_list
aggregation of the former gives exactly the per-material counts of the
latter. -/
theorem find_materials_matches_weighted_counts (bps : Dict) (F G : Nat)
    (item : String) (out ref : List String)
    (h1 : find_materials bps G item = .ok out)
    (h2 : resolve_acc bps F item 1 = some ref) :
    ∀ s, lookupNat (pack_list out) s = ref.count s := by
  intro s
  rw [lookupNat_pack_list]
  cases hb : lookup bps item with
  | none =>
    rw [find_materials, hb] at h1
    cases h1
  | some b =>
    cases hfl : findLoop bps G b.materials_list 0 [] with
    | none =>
      simp only [find_materials, hb, hfl] at h1
      cases h1
    | some p =>
      obtain ⟨r, t⟩ := p
      simp only [find_materials, hb, hfl] at h1
      have hsim := findLoop_eq_queueLoop bps G b.materials_list 0 []
        (by intro j hj; cases hj) (Nat.zero_le _)
      rw [hfl] at hsim
      simp only [List.take_zero, List.drop_zero] at hsim
      have hkept : filterOut ([] : List String) ([] : List Nat) = [] := rfl
      rw [hkept] at hsim
      cases h1
      have hF : 1 ≤ F := by
        cases F with
        | zero => rw [resolve_acc_zero] at h2; cases h2
        | succ f => omega
      obtain ⟨hmemb, hcnt⟩ := resolve_acc_key_unfold bps F item b ref hb h2
      have hql := queueLoop_count bps F hF G [] b.materials_list
        (filterOut r t) hsim.symm (by intro x hx; cases hx) hmemb s
      rw [hql, hcnt s]
      simp

/-- The refinement property at the concrete collection cXYZ: both
resolutions of X give six Z. -/
theorem find_materials_matches_weighted_counts_witness :
    lookupNat (pack_list (List.replicate 6 "Z")) "Z" =
      (List.replicate 6 "Z").count "Z" :=
  find_materials_matches_weighted_counts cXYZ 10 12 "X"
    (List.replicate 6 "Z") (List.replicate 6 "Z") (by decide) (by decide) "Z"

end Grimmeroo
